import Mathlib

/-!
Shallow embedding of the cloth-classifier web application (variant A:
clothing classifier, `src/src/App.tsx`; variant B: brain-tumor classifier,
`src/unnamed/part_001`).  Model output scores are modelled as rationals,
JS `undefined` as `Option.none`, and the React component state together
with its in-flight `img.onload` callbacks as an explicit state machine.
-/

/-- Fixed ordered class-label sequence of variant A (clothing classifier). -/
def classLabels : List String :=
  ["T-shirt/top", "Trouser", "Pullover", "Dress", "Coat",
   "Sandal", "Shirt", "Sneaker", "Bag", "Ankle boot"]

/-- Fixed ordered class-label sequence of variant B (brain-tumor classifier). -/
def classLabelsB : List String := ["Glioma", "Healthy", "Meningioma", "Pituitary"]

/-- JS Math.max over a nonempty argument list, seeded with the head. -/
def jsMax (x : ℚ) (xs : List ℚ) : ℚ := xs.foldl max x

/-- The source utility argMax: arr.indexOf(Math.max(...arr)).  On the empty
array Math.max() is -Infinity and indexOf yields -1. -/
def argMax : List ℚ → Int
  | [] => -1
  | x :: xs => ((x :: xs).indexOf (jsMax x xs) : ℕ)

/-- JS array indexing labels[i]: undefined (none) for a negative or
out-of-range index. -/
def jsIndex (labels : List String) (i : Int) : Option String :=
  if i < 0 then none else labels[i.toNat]?

/-- The label-selection step classLabels[argMax(Array.from(predictionData))]
of handlePredict. -/
def predictedClassOf (labels : List String) (scores : List ℚ) : Option String :=
  jsIndex labels (argMax scores)

/-- HistoryItem of the source: imageURL and predictedClass; the latter is
none when the JS value is undefined (out-of-bounds label lookup). -/
structure HistoryItem where
  imageURL : String
  predictedClass : Option String
  deriving DecidableEq

/-- An in-flight img.onload callback created by handlePredict: it closes over
the imageURL and the history value of the render in which the Predict click
was handled. -/
structure PendingPredict where
  imageURL : String
  histSnapshot : List HistoryItem
  deriving DecidableEq

/-- The React component state (model, imageURL, prediction, history) plus the
list of in-flight onload callbacks and counters for alert and console.error
calls.  The model handle is modelled by an opaque numeric id. -/
structure AppState where
  model : Option ℕ
  imageURL : Option String
  prediction : Option String
  history : List HistoryItem
  pending : List PendingPredict
  alerts : ℕ
  errorLog : ℕ
  deriving DecidableEq

/-- Initial component state: all useState initialisers. -/
def initState : AppState :=
  { model := none, imageURL := none, prediction := some "", history := [],
    pending := [], alerts := 0, errorLog := 0 }

/-- Session events: completion of the one startup model load, completion of a
FileReader read (image selection), a click on Predict, and the firing of the
k-th in-flight img.onload callback. -/
inductive Event where
  | loadDone : Event
  | selectImage : String → Event
  | predictClick : Event
  | decodeDone : ℕ → Event
  deriving DecidableEq

/-- JS truthiness test of the imageURL string state: null and the empty
string are falsy. -/
def jsFalsyStr : Option String → Bool
  | none => true
  | some s => s = ""

/-- One step of the session.  loadResult is the outcome of the single
tf.loadLayersModel call (none = rejection, logged by the catch block);
modelOutput gives the score vector model.predict produces for the image
decoded from a given URL.

loadDone runs the tail of loadModel: setModel on success, console.error on
failure.  selectImage runs the FileReader onload: setImageURL.  predictClick
runs handlePredict up to its first await: the precondition check
(!model || !imageURL) alerts and returns, otherwise an img.onload closure
capturing the current imageURL and history is registered.  decodeDone k runs
the body of the k-th registered onload: predict, argMax, label lookup,
setPrediction, and setHistory([...history, { imageURL, predictedClass }])
where history and imageURL are the values captured by the closure. -/
def step (labels : List String) (loadResult : Option ℕ)
    (modelOutput : String → List ℚ) (s : AppState) (e : Event) : AppState :=
  match e with
  | .loadDone =>
      match loadResult with
      | some h => { s with model := some h }
      | none => { s with errorLog := s.errorLog + 1 }
  | .selectImage u => { s with imageURL := some u }
  | .predictClick =>
      if s.model = none ∨ jsFalsyStr s.imageURL then
        { s with alerts := s.alerts + 1 }
      else
        { s with pending := s.pending ++
            [{ imageURL := s.imageURL.getD "", histSnapshot := s.history }] }
  | .decodeDone k =>
      match s.pending[k]? with
      | none => s
      | some p =>
          let cls := predictedClassOf labels (modelOutput p.imageURL)
          { s with prediction := cls,
                   history := p.histSnapshot ++ [⟨p.imageURL, cls⟩],
                   pending := s.pending.eraseIdx k }

/-- Run a session from a given state. -/
def runFrom (labels : List String) (loadResult : Option ℕ)
    (modelOutput : String → List ℚ) (s : AppState) (events : List Event) :
    AppState :=
  events.foldl (step labels loadResult modelOutput) s

/-- Run a session from the initial state. -/
def runSession (labels : List String) (loadResult : Option ℕ)
    (modelOutput : String → List ℚ) (events : List Event) : AppState :=
  runFrom labels loadResult modelOutput initState events

/-- The chronological list of (image, label) pairs produced by the predict
calls that complete during a run: one pair per decodeDone event that fires an
actually registered onload callback, in completion order. -/
def completedFrom (labels : List String) (loadResult : Option ℕ)
    (modelOutput : String → List ℚ) : AppState → List Event → List HistoryItem
  | _, [] => []
  | s, Event.decodeDone k :: rest =>
      (match s.pending[k]? with
       | some p => [⟨p.imageURL, predictedClassOf labels (modelOutput p.imageURL)⟩]
       | none => []) ++
      completedFrom labels loadResult modelOutput
        (step labels loadResult modelOutput s (Event.decodeDone k)) rest
  | s, Event.loadDone :: rest =>
      completedFrom labels loadResult modelOutput
        (step labels loadResult modelOutput s Event.loadDone) rest
  | s, Event.selectImage u :: rest =>
      completedFrom labels loadResult modelOutput
        (step labels loadResult modelOutput s (Event.selectImage u)) rest
  | s, Event.predictClick :: rest =>
      completedFrom labels loadResult modelOutput
        (step labels loadResult modelOutput s Event.predictClick) rest

/-- Decides that predictions in a run never overlap: whenever Predict is
clicked, no earlier onload callback is still in flight. -/
def seqOK (labels : List String) (loadResult : Option ℕ)
    (modelOutput : String → List ℚ) : AppState → List Event → Bool
  | _, [] => true
  | s, Event.predictClick :: rest =>
      s.pending.isEmpty &&
      seqOK labels loadResult modelOutput
        (step labels loadResult modelOutput s Event.predictClick) rest
  | s, Event.loadDone :: rest =>
      seqOK labels loadResult modelOutput
        (step labels loadResult modelOutput s Event.loadDone) rest
  | s, Event.selectImage u :: rest =>
      seqOK labels loadResult modelOutput
        (step labels loadResult modelOutput s (Event.selectImage u)) rest
  | s, Event.decodeDone k :: rest =>
      seqOK labels loadResult modelOutput
        (step labels loadResult modelOutput s (Event.decodeDone k)) rest

/-- Invariant of non-overlapping runs: at most one onload callback is in
flight and its captured history equals the current history. -/
def SeqInv (s : AppState) : Prop :=
  s.pending = [] ∨ ∃ p, s.pending = [p] ∧ p.histSnapshot = s.history

/-- A decoded raster image: source dimensions and integer sample values,
indexed by row, column and channel. -/
structure RasterImage where
  width : ℕ
  height : ℕ
  px : ℕ → ℕ → ℕ → ℕ

/-- A valid decode yields 8-bit samples. -/
def RasterImage.Valid (img : RasterImage) : Prop :=
  ∀ r c ch, img.px r c ch ≤ 255

/-- The pipeline tf.browser.fromPixels(img, c).resizeNearestNeighbor([h, w])
.toFloat().div(tf.scalar(255.0)): keep c channel samples per pixel, sample
the source with nearest-neighbor indices, and normalize by 255.  The result
is a rank-3 grid of shape [h, w, c]. -/
def fromPixelsResized (img : RasterImage) (h w c : ℕ) : List (List (List ℚ)) :=
  (List.range h).map fun i =>
    (List.range w).map fun j =>
      (List.range c).map fun ch =>
        (img.px (i * img.height / h) (j * img.width / w) ch : ℚ) / 255

/-- preprocessImage of variant A: grayscale 28x28 plus the batch axis added
by expandDims(), giving shape [1, 28, 28, 1]. -/
def preprocessImage (img : RasterImage) : List (List (List (List ℚ))) :=
  [fromPixelsResized img 28 28 1]

/-- preprocessImage of variant B: RGB 150x150 plus the batch axis, giving
shape [1, 150, 150, 3]. -/
def preprocessImageB (img : RasterImage) : List (List (List (List ℚ))) :=
  [fromPixelsResized img 150 150 3]

/-- A rank-4 nested list has exact shape [n, h, w, c]. -/
def HasShape (t : List (List (List (List ℚ)))) (n h w c : ℕ) : Prop :=
  t.length = n ∧ ∀ b ∈ t, b.length = h ∧ ∀ r ∈ b, r.length = w ∧ ∀ q ∈ r, q.length = c

/-- Every element of a rank-4 nested list lies in the closed interval
between 0 and 1. -/
def ValsIn01 (t : List (List (List (List ℚ)))) : Prop :=
  ∀ b ∈ t, ∀ r ∈ b, ∀ q ∈ r, ∀ v ∈ q, 0 ≤ v ∧ v ≤ 1

/-- Number of Predict clicks in an event list. -/
def countClicks : List Event → ℕ
  | [] => 0
  | Event.predictClick :: rest => countClicks rest + 1
  | Event.loadDone :: rest => countClicks rest
  | Event.selectImage _ :: rest => countClicks rest
  | Event.decodeDone _ :: rest => countClicks rest

/-- Number of load completions in an event list. -/
def countLoads : List Event → ℕ
  | [] => 0
  | Event.loadDone :: rest => countLoads rest + 1
  | Event.predictClick :: rest => countLoads rest
  | Event.selectImage _ :: rest => countLoads rest
  | Event.decodeDone _ :: rest => countLoads rest

/-!  Helper lemmas. -/

/-- The JS maximum of a nonempty list is one of its elements. -/
lemma jsMax_mem (x : ℚ) (xs : List ℚ) : jsMax x xs ∈ x :: xs := by
  induction xs generalizing x with
  | nil => simp [jsMax]
  | cons y ys ih =>
    have h := ih (max x y)
    have hj : jsMax x (y :: ys) = jsMax (max x y) ys := rfl
    rw [hj]
    rcases List.mem_cons.mp h with h1 | h1
    · rcases max_choice x y with hm | hm
      · exact List.mem_cons.mpr (Or.inl (h1.trans hm))
      · exact List.mem_cons.mpr (Or.inr (List.mem_cons.mpr (Or.inl (h1.trans hm))))
    · exact List.mem_cons_of_mem _ (List.mem_cons_of_mem _ h1)

/-- Every element of a nonempty list is at most its JS maximum. -/
lemma le_jsMax (x : ℚ) (xs : List ℚ) : ∀ a ∈ x :: xs, a ≤ jsMax x xs := by
  induction xs generalizing x with
  | nil => intro a ha; simp only [List.mem_singleton] at ha; simp [jsMax, ha]
  | cons y ys ih =>
    intro a ha
    have hj : jsMax x (y :: ys) = jsMax (max x y) ys := rfl
    rw [hj]
    rcases List.mem_cons.mp ha with h1 | h1
    · subst h1
      exact le_trans (le_max_left a y) (ih (max a y) _ (List.mem_cons_self _ _))
    · rcases List.mem_cons.mp h1 with h2 | h2
      · subst h2
        exact le_trans (le_max_right x a) (ih (max x a) _ (List.mem_cons_self _ _))
      · exact ih (max x y) a (List.mem_cons_of_mem _ h2)

/-- Elements strictly before the first occurrence index differ from the
sought value. -/
lemma getElem_ne_of_lt_indexOf {a : ℚ} : ∀ {l : List ℚ} {j : ℕ} (hl : j < l.length),
    j < List.indexOf a l → l[j] ≠ a := by
  intro l
  induction l with
  | nil => intro j hl _; simp at hl
  | cons x xs ih =>
    intro j hl hj
    by_cases hx : x = a
    · rw [List.indexOf_cons_eq _ hx] at hj; omega
    · cases j with
      | zero => simpa using hx
      | succ j' =>
        rw [List.indexOf_cons_ne _ hx] at hj
        simp only [List.getElem_cons_succ]
        exact ih (by simpa using hl) (Nat.lt_of_succ_lt_succ hj)

/-- C4: for every non-empty score vector, argMax returns a nonnegative
in-range index holding a maximal score, and every strictly earlier entry is
strictly smaller (ties broken by lowest index); in particular the scores
0.5, 0.5, 0.1 select the label at index 0. -/
theorem argMax_selects_first_maximum (l : List ℚ) (hne : l ≠ []) :
    0 ≤ argMax l ∧ (argMax l).toNat < l.length ∧
    (∀ j, j < l.length → l.getD j 0 ≤ l.getD (argMax l).toNat 0) ∧
    (∀ j, j < (argMax l).toNat → l.getD j 0 < l.getD (argMax l).toNat 0) ∧
    predictedClassOf classLabels [1/2, 1/2, 1/10] = some "T-shirt/top" := by
  obtain ⟨x, xs, rfl⟩ := List.exists_cons_of_ne_nil hne
  have hargm : argMax (x :: xs) = ((x :: xs).indexOf (jsMax x xs) : ℕ) := rfl
  have hmem : jsMax x xs ∈ x :: xs := jsMax_mem x xs
  have hidx : (x :: xs).indexOf (jsMax x xs) < (x :: xs).length :=
    List.indexOf_lt_length.mpr hmem
  have htoNat : (argMax (x :: xs)).toNat = (x :: xs).indexOf (jsMax x xs) := by
    rw [hargm]; exact Int.toNat_natCast _
  have hget : (x :: xs)[(x :: xs).indexOf (jsMax x xs)] = jsMax x xs :=
    List.getElem_indexOf hidx
  refine ⟨?_, ?_, ?_, ?_, ?_⟩
  · rw [hargm]; exact Int.natCast_nonneg _
  · rw [htoNat]; exact hidx
  · intro j hj
    rw [List.getD_eq_getElem _ _ hj, htoNat, List.getD_eq_getElem _ _ (htoNat ▸ hidx)]
    rw [hget]
    exact le_jsMax x xs _ (List.getElem_mem _)
  · intro j hj
    rw [htoNat] at hj
    have hjl : j < (x :: xs).length := Nat.lt_trans hj hidx
    rw [List.getD_eq_getElem _ _ hjl, htoNat, List.getD_eq_getElem _ _ (htoNat ▸ hidx), hget]
    exact lt_of_le_of_ne (le_jsMax x xs _ (List.getElem_mem _))
      (getElem_ne_of_lt_indexOf hjl hj)
  · have e : ([1/2, 1/2, 1/10] : List ℚ)
        = [Rat.divInt 1 2, Rat.divInt 1 2, Rat.divInt 1 10] := by
      simp only [Rat.divInt_eq_div]; norm_num
    rw [e]; decide

/-- Witness for C4 at the tie-break scores. -/
theorem argMax_selects_first_maximum_witness :
    ([Rat.divInt 1 2, Rat.divInt 1 2, Rat.divInt 1 10] : List ℚ) ≠ []
  ∧ (argMax [Rat.divInt 1 2, Rat.divInt 1 2, Rat.divInt 1 10]).toNat
      < ([Rat.divInt 1 2, Rat.divInt 1 2, Rat.divInt 1 10] : List ℚ).length :=
  ⟨by decide, (argMax_selects_first_maximum _ (by decide)).2.1⟩

/-- C6: a Predict attempt while the model is null or no image is selected
leaves history, the displayed prediction and the in-flight pipeline
untouched and raises exactly one alert. -/
theorem predict_precondition_rejected (labels : List String) (loadResult : Option ℕ)
    (modelOutput : String → List ℚ) (s : AppState)
    (h : s.model = none ∨ s.imageURL = none) :
    (step labels loadResult modelOutput s Event.predictClick).history = s.history
  ∧ (step labels loadResult modelOutput s Event.predictClick).prediction = s.prediction
  ∧ (step labels loadResult modelOutput s Event.predictClick).pending = s.pending
  ∧ (step labels loadResult modelOutput s Event.predictClick).alerts = s.alerts + 1 := by
  have hg : (s.model = none ∨ jsFalsyStr s.imageURL) := by
    rcases h with h | h
    · exact Or.inl h
    · exact Or.inr (by rw [h]; rfl)
  simp [step, if_pos hg]

/-- Witness for C6 at the initial state. -/
theorem predict_precondition_rejected_witness :
    (step classLabels none (fun _ => []) initState Event.predictClick).history
      = initState.history
  ∧ (step classLabels none (fun _ => []) initState Event.predictClick).prediction
      = initState.prediction
  ∧ (step classLabels none (fun _ => []) initState Event.predictClick).pending
      = initState.pending
  ∧ (step classLabels none (fun _ => []) initState Event.predictClick).alerts
      = initState.alerts + 1 :=
  predict_precondition_rejected classLabels none (fun _ => []) initState (Or.inl rfl)

/-- C7: the argMax index is mapped through the fixed label sequence: output
0,0,0,0,0,0,0,1,0,0 yields Sneaker in variant A and history grows by exactly
that one entry; output 0.7,0.1,0.1,0.1 yields Glioma in variant B. -/
theorem predict_maps_argmax_through_labels :
    predictedClassOf classLabels [0,0,0,0,0,0,0,1,0,0] = some "Sneaker"
  ∧ predictedClassOf classLabelsB [7/10, 1/10, 1/10, 1/10] = some "Glioma"
  ∧ (runSession classLabels (some 0) (fun _ => [0,0,0,0,0,0,0,1,0,0])
      [Event.loadDone, Event.selectImage "img", Event.predictClick,
       Event.decodeDone 0]).history
      = [⟨"img", some "Sneaker"⟩] := by
  refine ⟨by decide, ?_, by decide⟩
  have e : ([7/10, 1/10, 1/10, 1/10] : List ℚ)
      = [Rat.divInt 7 10, Rat.divInt 1 10, Rat.divInt 1 10, Rat.divInt 1 10] := by
    simp only [Rat.divInt_eq_div]; norm_num
  rw [e]; decide

/-- C9: argMax of the empty vector is -1; when the output is empty or its
argMax index reaches past the label list the lookup yields no valid label
(undefined), which is nevertheless stored as the prediction and appended to
history with no bounds check. -/
theorem undefined_label_appended (labels : List String) (scores : List ℚ)
    (h : scores = [] ∨ labels.length ≤ (argMax scores).toNat) :
    argMax [] = -1
  ∧ predictedClassOf labels scores = none
  ∧ (runSession classLabels (some 0) (fun _ => [])
      [Event.loadDone, Event.selectImage "v", Event.predictClick,
       Event.decodeDone 0]).prediction = none
  ∧ (runSession classLabels (some 0) (fun _ => [])
      [Event.loadDone, Event.selectImage "v", Event.predictClick,
       Event.decodeDone 0]).history = [⟨"v", none⟩] := by
  refine ⟨rfl, ?_, by decide, by decide⟩
  rcases h with h | h
  · subst h; rfl
  · unfold predictedClassOf jsIndex
    by_cases hneg : argMax scores < 0
    · rw [if_pos hneg]
    · rw [if_neg hneg]
      exact List.getElem?_eq_none h

/-- Witness for C9: a five-score output against the four variant-B labels. -/
theorem undefined_label_appended_witness :
    predictedClassOf classLabelsB [0, 0, 0, 0, 1] = none :=
  (undefined_label_appended classLabelsB [0, 0, 0, 0, 1] (Or.inr (by decide))).2.1

/-- C10: the appended HistoryEntry pairs the label with the image that was
current when Predict was clicked; selecting a new image before the decode
completes changes the displayed image but not the recorded one. -/
theorem entry_pairs_invocation_image (labels : List String) (loadResult : Option ℕ)
    (modelOutput : String → List ℚ) (s : AppState) (u0 u1 : String)
    (hm : s.model ≠ none) (hi : s.imageURL = some u0) (h0 : u0 ≠ "") :
    (step labels loadResult modelOutput
      (step labels loadResult modelOutput
        (step labels loadResult modelOutput s Event.predictClick)
        (Event.selectImage u1))
      (Event.decodeDone s.pending.length)).history
      = s.history ++ [⟨u0, predictedClassOf labels (modelOutput u0)⟩]
  ∧ (step labels loadResult modelOutput
      (step labels loadResult modelOutput s Event.predictClick)
      (Event.selectImage u1)).imageURL = some u1 := by
  have hg : ¬(s.model = none ∨ jsFalsyStr s.imageURL = true) := by
    rintro (h | h)
    · exact hm h
    · rw [hi] at h; exact h0 (by simpa [jsFalsyStr] using h)
  have hg2 : ¬(s.model = none ∨ jsFalsyStr (some u0) = true) := by
    rw [← hi]; exact hg
  constructor
  · simp only [step, hi]
    rw [if_neg hg2]
    simp [List.getElem?_concat_length]
  · simp [step]

/-- Witness for C10: image a at click time, image b selected before decode. -/
theorem entry_pairs_invocation_image_witness :
    (step classLabels (some 0) (fun _ => [0,0,0,0,0,0,0,1,0,0])
      (step classLabels (some 0) (fun _ => [0,0,0,0,0,0,0,1,0,0])
        (step classLabels (some 0) (fun _ => [0,0,0,0,0,0,0,1,0,0])
          { model := some 0, imageURL := some "a", prediction := some "",
            history := [], pending := [], alerts := 0, errorLog := 0 }
          Event.predictClick)
        (Event.selectImage "b"))
      (Event.decodeDone 0)).history
      = [] ++ [⟨"a", predictedClassOf classLabels
          ((fun _ => ([0,0,0,0,0,0,0,1,0,0] : List ℚ)) "a")⟩] :=
  (entry_pairs_invocation_image classLabels (some 0) _ _ "a" "b"
    (by simp) rfl (by simp)).1

/-- A nonempty score vector whose argMax index is within the label list
yields a member of the label set. -/
lemma predictedClassOf_mem (labels : List String) (scores : List ℚ)
    (h1 : scores ≠ []) (h2 : (argMax scores).toNat < labels.length) :
    predictedClassOf labels scores ∈ labels.map Option.some := by
  obtain ⟨x, xs, rfl⟩ := List.exists_cons_of_ne_nil h1
  unfold predictedClassOf jsIndex
  rw [if_neg (by simp [argMax])]
  rw [List.getElem?_eq_getElem h2]
  exact List.mem_map_of_mem _ (List.getElem_mem _)

/-- Invariant propagation: if every stored and every captured history entry
carries a label of the set, this is preserved by every event. -/
lemma runFrom_labels_member (labels : List String) (loadResult : Option ℕ)
    (modelOutput : String → List ℚ)
    (hout : ∀ u, modelOutput u ≠ [] ∧ (argMax (modelOutput u)).toNat < labels.length) :
    ∀ (events : List Event) (s : AppState),
      (∀ e ∈ s.history, e.predictedClass ∈ labels.map Option.some) →
      (∀ p ∈ s.pending, ∀ e ∈ p.histSnapshot,
        e.predictedClass ∈ labels.map Option.some) →
      ∀ e ∈ (runFrom labels loadResult modelOutput s events).history,
        e.predictedClass ∈ labels.map Option.some := by
  intro events
  induction events with
  | nil => intro s h1 _; exact h1
  | cons e rest ih =>
    intro s h1 h2
    refine ih (step labels loadResult modelOutput s e) ?_ ?_
    · cases e with
      | loadDone =>
          cases hl : loadResult with
          | none => simpa [step, hl] using h1
          | some h => simpa [step, hl] using h1
      | selectImage u => simpa [step] using h1
      | predictClick =>
          by_cases hg : (s.model = none ∨ jsFalsyStr s.imageURL = true)
          · simpa [step, if_pos hg] using h1
          · simpa [step, if_neg hg] using h1
      | decodeDone k =>
          cases hp : s.pending[k]? with
          | none => simpa [step, hp] using h1
          | some p =>
              intro x hx
              simp only [step, hp] at hx
              rcases List.mem_append.mp hx with hx | hx
              · exact h2 p (List.getElem?_mem hp) x hx
              · rcases List.mem_singleton.mp hx with rfl
                exact predictedClassOf_mem labels _ (hout _).1 (hout _).2
    · cases e with
      | loadDone =>
          cases hl : loadResult with
          | none => simpa [step, hl] using h2
          | some h => simpa [step, hl] using h2
      | selectImage u => simpa [step] using h2
      | predictClick =>
          by_cases hg : (s.model = none ∨ jsFalsyStr s.imageURL = true)
          · simpa [step, if_pos hg] using h2
          · intro q hq
            simp only [step, if_neg hg] at hq
            rcases List.mem_append.mp hq with hq | hq
            · exact h2 q hq
            · rcases List.mem_singleton.mp hq with rfl
              exact h1
      | decodeDone k =>
          cases hp : s.pending[k]? with
          | none => simpa [step, hp] using h2
          | some p =>
              intro q hq
              simp only [step, hp] at hq
              exact h2 q (List.mem_of_mem_eraseIdx hq)

/-- C1 (amended): for every completed prediction whose model output vector
is non-empty with argMax index below the label count, the predictedLabel
stored in the appended HistoryEntry is a member of the active ClassLabel
set. -/
theorem history_label_member (labels : List String) (loadResult : Option ℕ)
    (modelOutput : String → List ℚ) (events : List Event)
    (hout : ∀ u, modelOutput u ≠ [] ∧ (argMax (modelOutput u)).toNat < labels.length) :
    ∀ e ∈ (runSession labels loadResult modelOutput events).history,
      e.predictedClass ∈ labels.map Option.some :=
  runFrom_labels_member labels loadResult modelOutput hout events initState
    (by intro e he; simp [initState] at he) (by intro p hp; simp [initState] at hp)

/-- Witness for C1's amended theorem. -/
theorem history_label_member_witness :
    (HistoryItem.mk "img" (some "Sneaker")).predictedClass
      ∈ classLabels.map Option.some := by
  have h := history_label_member classLabels (some 0) (fun _ => [0,0,0,0,0,0,0,1,0,0])
    [Event.loadDone, Event.selectImage "img", Event.predictClick, Event.decodeDone 0]
    (fun u => ⟨by simp, by
      show (argMax [0,0,0,0,0,0,0,1,0,0]).toNat < classLabels.length
      decide⟩)
  exact h ⟨"img", some "Sneaker"⟩ (by decide)

/-- Counterexample to C1 as stated: for the empty output vector the stored
predictedLabel is undefined, not a member of the label set. -/
theorem history_label_member_cex :
    (runSession classLabels (some 0) (fun _ => [])
      [Event.loadDone, Event.selectImage "img0", Event.predictClick,
       Event.decodeDone 0]).history = [⟨"img0", none⟩]
  ∧ ¬ ((HistoryItem.mk "img0" none).predictedClass ∈ classLabels.map Option.some) :=
  ⟨by decide, by decide⟩


/-- After a failed load the model stays null, clicks only alert, and the
failure is logged once per load completion. -/
lemma runFrom_load_failed (labels : List String) (modelOutput : String → List ℚ) :
    ∀ (events : List Event) (s : AppState), s.model = none → s.pending = [] →
      (runFrom labels none modelOutput s events).model = none
    ∧ (runFrom labels none modelOutput s events).pending = []
    ∧ (runFrom labels none modelOutput s events).history = s.history
    ∧ (runFrom labels none modelOutput s events).alerts
        = s.alerts + countClicks events
    ∧ (runFrom labels none modelOutput s events).errorLog
        = s.errorLog + countLoads events := by
  intro events
  induction events with
  | nil =>
    intro s h1 h2
    exact ⟨h1, h2, rfl, by simp [runFrom, countClicks], by simp [runFrom, countLoads]⟩
  | cons e rest ih =>
    intro s h1 h2
    cases e with
    | loadDone =>
        have hst : runFrom labels none modelOutput s (Event.loadDone :: rest)
            = runFrom labels none modelOutput { s with errorLog := s.errorLog + 1 } rest := rfl
        obtain ⟨a, b, c, d, e⟩ := ih { s with errorLog := s.errorLog + 1 } h1 h2
        rw [hst]
        refine ⟨a, b, by simpa using c, ?_, ?_⟩
        · rw [d]; simp [countClicks]
        · rw [e]; simp [countLoads]; omega
    | selectImage u =>
        have hst : runFrom labels none modelOutput s (Event.selectImage u :: rest)
            = runFrom labels none modelOutput { s with imageURL := some u } rest := rfl
        obtain ⟨a, b, c, d, e⟩ := ih { s with imageURL := some u } h1 h2
        rw [hst]
        refine ⟨a, b, by simpa using c, ?_, ?_⟩
        · rw [d]; simp [countClicks]
        · rw [e]; simp [countLoads]
    | predictClick =>
        have hstep : step labels none modelOutput s Event.predictClick
            = { s with alerts := s.alerts + 1 } := by
          simp [step, if_pos (Or.inl h1)]
        have hst : runFrom labels none modelOutput s (Event.predictClick :: rest)
            = runFrom labels none modelOutput { s with alerts := s.alerts + 1 } rest := by
          show runFrom labels none modelOutput
            (step labels none modelOutput s Event.predictClick) rest = _
          rw [hstep]
        obtain ⟨a, b, c, d, e⟩ := ih { s with alerts := s.alerts + 1 } h1 h2
        rw [hst]
        refine ⟨a, b, by simpa using c, ?_, ?_⟩
        · rw [d]; simp [countClicks]; omega
        · rw [e]; simp [countLoads]
    | decodeDone k =>
        have hstep : step labels none modelOutput s (Event.decodeDone k) = s := by
          simp [step, h2]
        have hst : runFrom labels none modelOutput s (Event.decodeDone k :: rest)
            = runFrom labels none modelOutput s rest := by
          show runFrom labels none modelOutput
            (step labels none modelOutput s (Event.decodeDone k)) rest = _
          rw [hstep]
        obtain ⟨a, b, c, d, e⟩ := ih s h1 h2
        rw [hst]
        refine ⟨a, b, c, ?_, ?_⟩
        · rw [d]; simp [countClicks]
        · rw [e]; simp [countLoads]

/-- Once the model field equals the session's load result it never changes:
the handle is never replaced or cleared. -/
lemma runFrom_model_stays (labels : List String) (loadResult : Option ℕ)
    (modelOutput : String → List ℚ) :
    ∀ (events : List Event) (s : AppState), s.model = loadResult →
      (runFrom labels loadResult modelOutput s events).model = loadResult := by
  intro events
  induction events with
  | nil => intro s h; exact h
  | cons e rest ih =>
    intro s h
    refine ih (step labels loadResult modelOutput s e) ?_
    cases e with
    | loadDone =>
        cases hl : loadResult with
        | none => simpa [step, hl] using h
        | some m => simp [step, hl]
    | selectImage u => simpa [step] using h
    | predictClick =>
        by_cases hg : (s.model = none ∨ jsFalsyStr s.imageURL = true)
        · simpa [step, if_pos hg] using h
        · simpa [step, if_neg hg] using h
    | decodeDone k =>
        cases hp : s.pending[k]? with
        | none => simpa [step, hp] using h
        | some p => simpa [step, hp] using h

/-- The model field is always null or the load result. -/
lemma runFrom_model_none_or (labels : List String) (loadResult : Option ℕ)
    (modelOutput : String → List ℚ) :
    ∀ (events : List Event) (s : AppState),
      (s.model = none ∨ s.model = loadResult) →
      ((runFrom labels loadResult modelOutput s events).model = none
       ∨ (runFrom labels loadResult modelOutput s events).model = loadResult) := by
  intro events
  induction events with
  | nil => intro s h; exact h
  | cons e rest ih =>
    intro s h
    refine ih (step labels loadResult modelOutput s e) ?_
    cases e with
    | loadDone =>
        cases hl : loadResult with
        | none => simpa [step, hl] using h
        | some m => simp [step, hl]
    | selectImage u => simpa [step] using h
    | predictClick =>
        by_cases hg : (s.model = none ∨ jsFalsyStr s.imageURL = true)
        · simpa [step, if_pos hg] using h
        · simpa [step, if_neg hg] using h
    | decodeDone k =>
        cases hp : s.pending[k]? with
        | none => simpa [step, hp] using h
        | some p => simpa [step, hp] using h

/-- C8: if the one-time load fails the model stays null for the whole
session, the failure is only logged (once per load completion), every
Predict click is rejected by an alert and nothing reaches history; and once
the model field holds a handle it is never replaced or cleared at any later
point of the session. -/
theorem model_axis_one_way (labels : List String) (modelOutput : String → List ℚ)
    (events : List Event) :
    (runSession labels none modelOutput events).model = none
  ∧ (runSession labels none modelOutput events).history = []
  ∧ (runSession labels none modelOutput events).pending = []
  ∧ (runSession labels none modelOutput events).alerts = countClicks events
  ∧ (runSession labels none modelOutput events).errorLog = countLoads events
  ∧ ∀ (loadResult : Option ℕ) (h n m : ℕ), n ≤ m →
      (runSession labels loadResult modelOutput (events.take n)).model = some h →
      (runSession labels loadResult modelOutput (events.take m)).model = some h := by
  obtain ⟨a, b, c, d, e⟩ := runFrom_load_failed labels modelOutput events initState rfl rfl
  refine ⟨a, c, b, by rw [runSession, d]; simp [initState], by rw [runSession, e]; simp [initState], ?_⟩
  intro loadResult h n m hnm hn
  have hor := runFrom_model_none_or labels loadResult modelOutput
    (events.take n) initState (Or.inl rfl)
  have hlr : loadResult = some h := by
    rcases hor with h0 | h0
    · rw [runSession] at hn; rw [hn] at h0; simp at h0
    · rw [runSession] at hn; rw [hn] at h0; exact h0.symm
  subst hlr
  have hsplit : events.take m = events.take n ++ (events.drop n).take (m - n) := by
    rw [← List.take_add]; congr 1; omega
  have hstay := runFrom_model_stays labels (some h) modelOutput
    ((events.drop n).take (m - n))
    (runSession labels (some h) modelOutput (events.take n)) hn
  show (List.foldl (step labels (some h) modelOutput) initState (events.take m)).model
      = some h
  rw [hsplit, List.foldl_append]
  exact hstay

/-- Witness for C8. -/
theorem model_axis_one_way_witness :
    (runSession classLabels none (fun _ => [])
      [Event.loadDone, Event.selectImage "u", Event.predictClick]).model = none
  ∧ (runSession classLabels (some 5) (fun _ => [])
      (([Event.loadDone, Event.predictClick]).take 2)).model = some 5 :=
  ⟨(model_axis_one_way classLabels (fun _ => [])
      [Event.loadDone, Event.selectImage "u", Event.predictClick]).1,
   (model_axis_one_way classLabels (fun _ => [])
      [Event.loadDone, Event.predictClick]).2.2.2.2.2 (some 5) 5 1 2
      (by decide) (by decide)⟩

/-- C2: evaluation at the failing interleaving.  Selecting image b and
clicking Predict again before the first prediction completes makes the
second onload capture the stale empty history; after both predictions
complete, two (image, label) pairs were produced but history holds only the
second one -- the first entry is lost. -/
theorem overlapping_selection_loses_entry :
    (runSession classLabels (some 0) (fun _ => [0,0,0,0,0,0,0,1,0,0])
      [Event.loadDone, Event.selectImage "a", Event.predictClick,
       Event.selectImage "b", Event.predictClick,
       Event.decodeDone 0, Event.decodeDone 0]).pending = []
  ∧ completedFrom classLabels (some 0) (fun _ => [0,0,0,0,0,0,0,1,0,0]) initState
      [Event.loadDone, Event.selectImage "a", Event.predictClick,
       Event.selectImage "b", Event.predictClick,
       Event.decodeDone 0, Event.decodeDone 0]
      = [⟨"a", some "Sneaker"⟩, ⟨"b", some "Sneaker"⟩]
  ∧ (runSession classLabels (some 0) (fun _ => [0,0,0,0,0,0,0,1,0,0])
      [Event.loadDone, Event.selectImage "a", Event.predictClick,
       Event.selectImage "b", Event.predictClick,
       Event.decodeDone 0, Event.decodeDone 0]).history
      = [⟨"b", some "Sneaker"⟩] :=
  ⟨by decide, by decide, by decide⟩

/-- Splitting a run over an appended event list. -/
lemma runFrom_append (labels : List String) (loadResult : Option ℕ)
    (modelOutput : String → List ℚ) (s : AppState) (l1 l2 : List Event) :
    runFrom labels loadResult modelOutput s (l1 ++ l2)
      = runFrom labels loadResult modelOutput
          (runFrom labels loadResult modelOutput s l1) l2 :=
  List.foldl_append _ _ _ _

/-- Splitting the non-overlap check over an appended event list. -/
lemma seqOK_append (labels : List String) (loadResult : Option ℕ)
    (modelOutput : String → List ℚ) :
    ∀ (l1 l2 : List Event) (s : AppState),
      seqOK labels loadResult modelOutput s (l1 ++ l2)
        = (seqOK labels loadResult modelOutput s l1
           && seqOK labels loadResult modelOutput
                (runFrom labels loadResult modelOutput s l1) l2) := by
  intro l1
  induction l1 with
  | nil => intro l2 s; simp [seqOK, runFrom]
  | cons e rest ih =>
    intro l2 s
    cases e <;>
      rw [List.cons_append, seqOK, seqOK, ih l2 (step labels loadResult modelOutput s _)] <;>
      first
        | rfl
        | rw [Bool.and_assoc]; rfl

/-- Splitting the completed-prediction list over an appended event list. -/
lemma completedFrom_append (labels : List String) (loadResult : Option ℕ)
    (modelOutput : String → List ℚ) :
    ∀ (l1 l2 : List Event) (s : AppState),
      completedFrom labels loadResult modelOutput s (l1 ++ l2)
        = completedFrom labels loadResult modelOutput s l1
          ++ completedFrom labels loadResult modelOutput
               (runFrom labels loadResult modelOutput s l1) l2 := by
  intro l1
  induction l1 with
  | nil => intro l2 s; simp [completedFrom, runFrom]
  | cons e rest ih =>
    intro l2 s
    cases e <;>
      rw [List.cons_append, completedFrom, completedFrom,
        ih l2 (step labels loadResult modelOutput s _)] <;>
      first
        | rfl
        | rw [List.append_assoc]; rfl

/-- SeqInv depends only on the pending and history fields. -/
lemma SeqInv_of_eq {s t : AppState} (h : SeqInv s) (hp : t.pending = s.pending)
    (hh : t.history = s.history) : SeqInv t := by
  unfold SeqInv at *
  rw [hp, hh]
  exact h

/-- In a non-overlapping run, the final history is the starting history
followed by the chronological list of completed predictions, and the
invariant is maintained. -/
lemma runFrom_seq (labels : List String) (loadResult : Option ℕ)
    (modelOutput : String → List ℚ) :
    ∀ (events : List Event) (s : AppState), SeqInv s →
      seqOK labels loadResult modelOutput s events = true →
      (runFrom labels loadResult modelOutput s events).history
        = s.history ++ completedFrom labels loadResult modelOutput s events
      ∧ SeqInv (runFrom labels loadResult modelOutput s events) := by
  intro events
  induction events with
  | nil => intro s hinv _; exact ⟨by simp [runFrom, completedFrom], hinv⟩
  | cons e rest ih =>
    intro s hinv hok
    cases e with
    | loadDone =>
        have hfp : (step labels loadResult modelOutput s Event.loadDone).pending
            = s.pending := by cases loadResult <;> simp [step]
        have hfh : (step labels loadResult modelOutput s Event.loadDone).history
            = s.history := by cases loadResult <;> simp [step]
        have hok' : seqOK labels loadResult modelOutput
            (step labels loadResult modelOutput s Event.loadDone) rest = true := by
          rw [seqOK] at hok; exact hok
        have h := ih (step labels loadResult modelOutput s Event.loadDone)
          (SeqInv_of_eq hinv hfp hfh) hok'
        refine ⟨?_, h.2⟩
        show (runFrom labels loadResult modelOutput
          (step labels loadResult modelOutput s Event.loadDone) rest).history = _
        rw [h.1, hfh, completedFrom]
    | selectImage u =>
        have hok' : seqOK labels loadResult modelOutput
            (step labels loadResult modelOutput s (Event.selectImage u)) rest = true := by
          rw [seqOK] at hok; exact hok
        have h := ih (step labels loadResult modelOutput s (Event.selectImage u))
          (SeqInv_of_eq hinv (by simp [step]) (by simp [step])) hok'
        refine ⟨?_, h.2⟩
        show (runFrom labels loadResult modelOutput
          (step labels loadResult modelOutput s (Event.selectImage u)) rest).history = _
        rw [h.1, completedFrom]
        simp [step]
    | predictClick =>
        rw [seqOK, Bool.and_eq_true] at hok
        obtain ⟨hpe, hok'⟩ := hok
        have hpnil : s.pending = [] := by simpa [List.isEmpty_iff] using hpe
        by_cases hg : (s.model = none ∨ jsFalsyStr s.imageURL = true)
        · have hfp : (step labels loadResult modelOutput s Event.predictClick).pending
              = s.pending := by simp [step, if_pos hg]
          have hfh : (step labels loadResult modelOutput s Event.predictClick).history
              = s.history := by simp [step, if_pos hg]
          have h := ih (step labels loadResult modelOutput s Event.predictClick)
            (SeqInv_of_eq hinv hfp hfh) hok'
          refine ⟨?_, h.2⟩
          show (runFrom labels loadResult modelOutput
            (step labels loadResult modelOutput s Event.predictClick) rest).history = _
          rw [h.1, hfh, completedFrom]
        · have hfp : (step labels loadResult modelOutput s Event.predictClick).pending
              = [{ imageURL := s.imageURL.getD "", histSnapshot := s.history }] := by
            simp [step, if_neg hg, hpnil]
          have hfh : (step labels loadResult modelOutput s Event.predictClick).history
              = s.history := by simp [step, if_neg hg]
          have h := ih (step labels loadResult modelOutput s Event.predictClick)
            (Or.inr ⟨_, hfp, by rw [hfh]⟩) hok'
          refine ⟨?_, h.2⟩
          show (runFrom labels loadResult modelOutput
            (step labels loadResult modelOutput s Event.predictClick) rest).history = _
          rw [h.1, hfh, completedFrom]
    | decodeDone k =>
        have hok' : seqOK labels loadResult modelOutput
            (step labels loadResult modelOutput s (Event.decodeDone k)) rest = true := by
          rw [seqOK] at hok; exact hok
        rcases hinv with hpnil | ⟨p, hpend, hsnap⟩
        · have hnone : s.pending[k]? = none := by rw [hpnil]; simp
          have hst : step labels loadResult modelOutput s (Event.decodeDone k) = s := by
            simp [step, hnone]
          rw [hst] at hok'
          have h := ih s (Or.inl hpnil) hok'
          refine ⟨?_, ?_⟩
          · show (runFrom labels loadResult modelOutput
              (step labels loadResult modelOutput s (Event.decodeDone k)) rest).history = _
            rw [hst, h.1, completedFrom, hnone]
            simp [hst]
          · show SeqInv (runFrom labels loadResult modelOutput
              (step labels loadResult modelOutput s (Event.decodeDone k)) rest)
            rw [hst]; exact h.2
        · cases k with
          | zero =>
              have hsome : s.pending[0]? = some p := by rw [hpend]; rfl
              have hfh : (step labels loadResult modelOutput s (Event.decodeDone 0)).history
                  = s.history ++ [⟨p.imageURL,
                      predictedClassOf labels (modelOutput p.imageURL)⟩] := by
                simp [step, hsome, hsnap]
              have hfp : (step labels loadResult modelOutput s (Event.decodeDone 0)).pending
                  = [] := by simp [step, hsome, hpend]
              have h := ih (step labels loadResult modelOutput s (Event.decodeDone 0))
                (Or.inl hfp) hok'
              refine ⟨?_, h.2⟩
              show (runFrom labels loadResult modelOutput
                (step labels loadResult modelOutput s (Event.decodeDone 0)) rest).history = _
              rw [h.1, hfh, completedFrom, hsome, List.append_assoc]
          | succ j =>
              have hnone : s.pending[j + 1]? = none := by rw [hpend]; simp
              have hst : step labels loadResult modelOutput s (Event.decodeDone (j + 1))
                  = s := by simp [step, hnone]
              rw [hst] at hok'
              have h := ih s (Or.inr ⟨p, hpend, hsnap⟩) hok'
              refine ⟨?_, ?_⟩
              · show (runFrom labels loadResult modelOutput
                  (step labels loadResult modelOutput s (Event.decodeDone (j + 1)))
                  rest).history = _
                rw [hst, h.1, completedFrom, hnone]
                simp [hst]
              · show SeqInv (runFrom labels loadResult modelOutput
                  (step labels loadResult modelOutput s (Event.decodeDone (j + 1))) rest)
                rw [hst]; exact h.2

/-- C3 (amended): provided predictions do not overlap (no Predict click
while an onload callback is in flight), the history equals the chronological
list of completed predictions, so after N successful predictions it has
length N with history i the i-th (image, label) pair, and every prefix of
the session sees a prefix of the final history (append-only, no removal or
reordering). -/
theorem history_append_only_sequential (labels : List String) (loadResult : Option ℕ)
    (modelOutput : String → List ℚ) (events : List Event)
    (hseq : seqOK labels loadResult modelOutput initState events = true) :
    (runSession labels loadResult modelOutput events).history
      = completedFrom labels loadResult modelOutput initState events
  ∧ ∀ n : ℕ, ∃ t, (runSession labels loadResult modelOutput events).history
      = (runSession labels loadResult modelOutput (events.take n)).history ++ t := by
  have h := runFrom_seq labels loadResult modelOutput events initState (Or.inl rfl) hseq
  constructor
  · rw [runSession, h.1]; simp [initState]
  · intro n
    have hsplit : events = events.take n ++ events.drop n :=
      (List.take_append_drop n events).symm
    have hOK2 := hseq
    rw [hsplit] at hOK2
    rw [seqOK_append labels loadResult modelOutput] at hOK2
    rw [Bool.and_eq_true] at hOK2
    obtain ⟨hok1, hok2⟩ := hOK2
    have hpre := runFrom_seq labels loadResult modelOutput (events.take n) initState
      (Or.inl rfl) hok1
    have hrest := runFrom_seq labels loadResult modelOutput (events.drop n)
      (runFrom labels loadResult modelOutput initState (events.take n)) hpre.2 hok2
    refine ⟨completedFrom labels loadResult modelOutput
      (runFrom labels loadResult modelOutput initState (events.take n))
      (events.drop n), ?_⟩
    have hdecomp : runFrom labels loadResult modelOutput initState events
        = runFrom labels loadResult modelOutput
            (runFrom labels loadResult modelOutput initState (events.take n))
            (events.drop n) := by
      conv_lhs => rw [hsplit]
      exact runFrom_append labels loadResult modelOutput initState _ _
    rw [runSession, runSession, hdecomp, hrest.1]

/-- Witness for C3's amended theorem at a concrete sequential session. -/
theorem history_append_only_sequential_witness :
    (runSession classLabels (some 0) (fun _ => [0,0,0,0,0,0,0,1,0,0])
      [Event.loadDone, Event.selectImage "a", Event.predictClick, Event.decodeDone 0,
       Event.selectImage "b", Event.predictClick, Event.decodeDone 0]).history
      = completedFrom classLabels (some 0) (fun _ => [0,0,0,0,0,0,0,1,0,0]) initState
          [Event.loadDone, Event.selectImage "a", Event.predictClick, Event.decodeDone 0,
           Event.selectImage "b", Event.predictClick, Event.decodeDone 0] :=
  (history_append_only_sequential classLabels (some 0) _ _ (by decide)).1

/-- Counterexample to C3 as stated: two Predict clicks overlap, both complete
(two pairs produced), yet history ends with a single entry. -/
theorem history_append_only_cex :
    completedFrom classLabels (some 0) (fun _ => [0,0,0,0,0,0,0,1,0,0]) initState
      [Event.loadDone, Event.selectImage "x", Event.predictClick,
       Event.predictClick, Event.decodeDone 0, Event.decodeDone 0]
      = [⟨"x", some "Sneaker"⟩, ⟨"x", some "Sneaker"⟩]
  ∧ (runSession classLabels (some 0) (fun _ => [0,0,0,0,0,0,0,1,0,0])
      [Event.loadDone, Event.selectImage "x", Event.predictClick,
       Event.predictClick, Event.decodeDone 0, Event.decodeDone 0]).history.length
      = 1 :=
  ⟨by decide, by decide⟩

/-- Shape and value bounds of the resized, normalized pixel grid. -/
lemma fromPixelsResized_spec (img : RasterImage) (hv : img.Valid) (h w c : ℕ) :
    (fromPixelsResized img h w c).length = h
  ∧ (∀ r ∈ fromPixelsResized img h w c, r.length = w ∧ ∀ q ∈ r, q.length = c)
  ∧ (∀ r ∈ fromPixelsResized img h w c, ∀ q ∈ r, ∀ v ∈ q, 0 ≤ v ∧ v ≤ 1) := by
  refine ⟨by simp [fromPixelsResized], ?_, ?_⟩
  · intro r hr
    simp only [fromPixelsResized, List.mem_map, List.mem_range] at hr
    obtain ⟨i, hi, rfl⟩ := hr
    refine ⟨by simp, ?_⟩
    intro q hq
    simp only [List.mem_map, List.mem_range] at hq
    obtain ⟨j, hj, rfl⟩ := hq
    simp
  · intro r hr q hq v hvq
    simp only [fromPixelsResized, List.mem_map, List.mem_range] at hr
    obtain ⟨i, hi, rfl⟩ := hr
    simp only [List.mem_map, List.mem_range] at hq
    obtain ⟨j, hj, rfl⟩ := hq
    simp only [List.mem_map, List.mem_range] at hvq
    obtain ⟨ch, hch, rfl⟩ := hvq
    constructor
    · positivity
    · rw [div_le_one (by norm_num)]
      have := hv (i * img.height / h) (j * img.width / w) ch
      exact_mod_cast this

/-- C5: for every valid decoded image the preprocessed tensor has shape
exactly 1,28,28,1 in variant A and 1,150,150,3 in variant B, and every
element lies in the closed interval from 0 to 1. -/
theorem preprocess_shape_and_range (img : RasterImage) (hv : img.Valid) :
    HasShape (preprocessImage img) 1 28 28 1 ∧ ValsIn01 (preprocessImage img)
  ∧ HasShape (preprocessImageB img) 1 150 150 3 ∧ ValsIn01 (preprocessImageB img) := by
  obtain ⟨a1, a2, a3⟩ := fromPixelsResized_spec img hv 28 28 1
  obtain ⟨b1, b2, b3⟩ := fromPixelsResized_spec img hv 150 150 3
  refine ⟨⟨rfl, ?_⟩, ?_, ⟨rfl, ?_⟩, ?_⟩
  · intro b hb
    rw [List.mem_singleton.mp hb]
    exact ⟨a1, a2⟩
  · intro b hb
    rw [List.mem_singleton.mp hb]
    exact a3
  · intro b hb
    rw [List.mem_singleton.mp hb]
    exact ⟨b1, b2⟩
  · intro b hb
    rw [List.mem_singleton.mp hb]
    exact b3

/-- Witness for C5 at a constant mid-gray image. -/
theorem preprocess_shape_and_range_witness :
    HasShape (preprocessImage ⟨4, 4, fun _ _ _ => 128⟩) 1 28 28 1
  ∧ ValsIn01 (preprocessImage ⟨4, 4, fun _ _ _ => 128⟩)
  ∧ HasShape (preprocessImageB ⟨4, 4, fun _ _ _ => 128⟩) 1 150 150 3
  ∧ ValsIn01 (preprocessImageB ⟨4, 4, fun _ _ _ => 128⟩) :=
  preprocess_shape_and_range ⟨4, 4, fun _ _ _ => 128⟩
    (fun _ _ _ => by show (128 : ℕ) ≤ 255; decide)
